import Mathlib

/-!
Verification of the EML sorting script (Main_sort.py).

The script is embedded shallowly: the directory listing becomes a list of
source files, each carrying its filename, its raw bytes, and the three
headers the script reads (From, Subject, Date).  The standard-library call
email.utils.parsedate_to_datetime is abstracted as a parameter
pd : String → Option DateTime, where none models a raised exception (the
script catches every exception from the date parse and falls back to
UnknownDate).  Each shutil.copy performed by the copy loop becomes a
CopyEvent record; the final destination tree is obtained by folding the
events over a partial map from (folder, filename) paths to byte contents,
each event overwriting the previous value at its path, exactly as
shutil.copy overwrites an existing destination file.
-/

namespace EmlSort

/-- Calendar timestamp, the output of the abstracted date parser
(models datetime fields used by strftime). -/
structure DateTime where
  year : Nat
  month : Nat
  day : Nat
  hour : Nat
  minute : Nat
  second : Nat
deriving DecidableEq

/-- The headers of a parsed message that the script reads.  A missing
header is none; msg.get returns the raw header value otherwise. -/
structure Message where
  fromH : Option String
  subjectH : Option String
  dateH : Option String
deriving DecidableEq

/-- One file of the source directory listing: its name, its parsed
headers, and its raw byte content. -/
structure SrcFile where
  name : String
  msg : Message
  bytes : List Nat
deriving DecidableEq

/-- The character class of sanitize_folder_name: the raw Python string
r of line 21 holds the characters < > : " / \ | ? * (the doubled
backslash in the raw literal denotes two backslashes, which collapse to
one element of the regex character class). -/
def invalid_chars : List Char := ['<', '>', ':', '"', '/', '\\', '|', '?', '*']

/-- Character replacement performed by re.sub on line 22. -/
def folderRepl (c : Char) : Char := if c ∈ invalid_chars then '_' else c

/-- sanitize_folder_name: re.sub replaces every character of the class
with an underscore and leaves every other character unchanged. -/
def sanitize_folder_name (name : String) : String :=
  ⟨name.data.map folderRepl⟩

/-- The character class of sanitize_filename, line 36: the raw literal
has the same nine characters (with a redundant extra backslash). -/
def filename_invalid_chars : List Char := ['<', '>', ':', '"', '/', '\\', '|', '?', '*']

/-- Character replacement performed by re.sub on line 36: the pattern is
the character class alternated with a literal newline, so newlines are
also replaced by an underscore. -/
def fileRepl (c : Char) : Char :=
  if c ∈ filename_invalid_chars ∨ c = '\n' then '_' else c

/-- sanitize_filename, lines 25-36. -/
def sanitize_filename (name : String) : String :=
  ⟨name.data.map fileRepl⟩

/-- filename.endswith(".eml") of lines 51 and 82. -/
def isEmlName (name : String) : Bool := ".eml".data.isSuffixOf name.data

/-- senders.add(sender): adding to a Python set; modelled as a duplicate
free list (iteration order of a Python set is arbitrary anyway). -/
def insertSender (acc : List String) (s : String) : List String :=
  if s ∈ acc then acc else s :: acc

/-- Loop body of get_senders_from_eml, lines 50-58: only names ending in
.eml are considered, and the truthiness test if sender: keeps the value
only when it is present and non-empty. -/
def senderStep (acc : List String) (f : SrcFile) : List String :=
  if isEmlName f.name then
    match f.msg.fromH with
    | some s => if s = "" then acc else insertSender acc s
    | none => acc
  else acc

/-- get_senders_from_eml, lines 39-59. -/
def get_senders_from_eml (files : List SrcFile) : List String :=
  files.foldl senderStep []

/-- Zero padding to two digits, as strftime does for %m %d %H %M %S. -/
def pad2 (n : Nat) : String := if n < 10 then "0" ++ toString n else toString n

/-- Zero padding to four digits for %Y. -/
def pad4 (n : Nat) : String :=
  if n < 10 then "000" ++ toString n
  else if n < 100 then "00" ++ toString n
  else if n < 1000 then "0" ++ toString n
  else toString n

/-- strftime with format %Y-%m-%d_%H-%M-%S, line 94. -/
def strftimeYmdHMS (dt : DateTime) : String :=
  pad4 dt.year ++ "-" ++ pad2 dt.month ++ "-" ++ pad2 dt.day ++ "_" ++
  pad2 dt.hour ++ "-" ++ pad2 dt.minute ++ "-" ++ pad2 dt.second

/-- Lines 89-96: the try block around parsedate_to_datetime and strftime.
pd abstracts email.utils.parsedate_to_datetime; pd d = none models a
raised exception.  A missing Date header passes None to the parser, which
raises, so the except branch also yields UnknownDate. -/
def dateStrOf (pd : String → Option DateTime) (dateH : Option String) : String :=
  match dateH with
  | none => "UnknownDate"
  | some d =>
    match pd d with
    | none => "UnknownDate"
    | some dt => strftimeYmdHMS dt

/-- Lines 88 and 100-102: subject defaults to No Subject when the header
is missing, the subject is sanitized, and the destination filename is
composed as sanitized-subject _ date-string .eml. -/
def composedFilename (pd : String → Option DateTime) (m : Message) : String :=
  sanitize_filename (m.subjectH.getD "No Subject") ++ "_" ++ dateStrOf pd m.dateH ++ ".eml"

/-- One shutil.copy performed by the copy loop, lines 98-108: the sender
of the enclosing loop iteration, the source file name and bytes, the
destination folder (the sanitized sender, line 73), and the destination
filename (line 102). -/
structure CopyEvent where
  sender : String
  srcName : String
  srcBytes : List Nat
  destFolder : String
  destName : String
deriving DecidableEq

/-- The copy event produced for sender s and matching file f. -/
def mkCopyEvent (pd : String → Option DateTime) (s : String) (f : SrcFile) : CopyEvent :=
  { sender := s
    srcName := f.name
    srcBytes := f.bytes
    destFolder := sanitize_folder_name s
    destName := composedFilename pd f.msg }

/-- copy_emails_to_sender_folders, lines 62-109, as the list of copies it
performs: for each sender, every file named *.eml whose From header
equals the sender (line 99) is copied. -/
def copy_emails_to_sender_folders (pd : String → Option DateTime)
    (files : List SrcFile) (senders : List String) : List CopyEvent :=
  senders.flatMap (fun s =>
    (files.filter (fun f => isEmlName f.name && f.msg.fromH == some s)).map
      (mkCopyEvent pd s))

/-- The print of line 109: it has no counter of any kind in front. -/
def progressLine (e : CopyEvent) : String :=
  "Copied email " ++ e.srcName ++ " to folder " ++ e.destFolder ++
  " with name " ++ e.destName

/-- The console output of a run: one line per copy, in copy order. -/
def progressLines (pd : String → Option DateTime)
    (files : List SrcFile) (senders : List String) : List String :=
  (copy_emails_to_sender_folders pd files senders).map progressLine

/-- The destination tree: a partial map from (folder, filename) to byte
content. -/
abbrev FS := String × String → Option (List Nat)

/-- The empty destination tree. -/
def emptyFS : FS := fun _ => none

/-- shutil.copy, line 108: writes the source bytes verbatim at the
destination path, silently overwriting an existing file there. -/
def applyCopy (fs : FS) (e : CopyEvent) : FS :=
  fun p => if p = (e.destFolder, e.destName) then some e.srcBytes else fs p

/-- Effect of a list of copies on the destination tree, in order. -/
def runCopies (es : List CopyEvent) (fs : FS) : FS := es.foldl applyCopy fs

/-- main, lines 112-122: discover the senders, then run the copy phase;
the whole observable effect on the destination tree. -/
def run_sort (pd : String → Option DateTime) (files : List SrcFile) (fs : FS) : FS :=
  runCopies (copy_emails_to_sender_folders pd files (get_senders_from_eml files)) fs

/-- Source directory constant, line 114. -/
def folder_path : String := "email"

/-- Destination directory constant, line 116. -/
def output_path : String := "sort"

/-- The destination path written by a copy event. -/
def destKey (e : CopyEvent) : String × String := (e.destFolder, e.destName)

/-! ## Concrete fixtures used to instantiate the theorems -/

/-- A date parser that always fails (models parsedate_to_datetime raising). -/
def pdNone : String → Option DateTime := fun _ => none

/-- A date parser that always returns 2024-01-01 10:00:00. -/
def pdJan2024 : String → Option DateTime := fun _ => some ⟨2024, 1, 1, 10, 0, 0⟩

/-- A message file from alice with a subject and no date. -/
def fileA : SrcFile := ⟨"a.eml", ⟨some "alice@x.com", some "Hi", none⟩, [72, 105]⟩

/-- A file whose name does not end in .eml. -/
def fileTxt : SrcFile := ⟨"notes.txt", ⟨some "zed@x.com", none, none⟩, [1]⟩

/-- A message file whose From header is present but empty. -/
def fEmptyFrom : SrcFile := ⟨"b.eml", ⟨some "", none, none⟩, [0]⟩

/-- A message file with neither Subject nor Date header. -/
def fileNoHdr : SrcFile := ⟨"n.eml", ⟨some "bob@x.com", none, none⟩, [3]⟩

/-- A message file with a parseable Date header. -/
def fileDated : SrcFile :=
  ⟨"d.eml", ⟨some "alice@x.com", some "Hi", some "Mon, 1 Jan 2024 10:00:00 +0000"⟩, [9]⟩

/-- First of two colliding messages from carol. -/
def fileC1 : SrcFile := ⟨"r1.eml", ⟨some "carol@x.com", some "Report", some "D"⟩, [10]⟩

/-- Second of two colliding messages from carol; same headers, different bytes. -/
def fileC2 : SrcFile := ⟨"r2.eml", ⟨some "carol@x.com", some "Report", some "D"⟩, [11]⟩

/-! ## Helper lemmas -/

lemma mem_insertSender (acc : List String) (s t : String) :
    t ∈ insertSender acc s ↔ t = s ∨ t ∈ acc := by
  unfold insertSender
  split
  · constructor
    · exact fun h => Or.inr h
    · rintro (rfl | h) <;> assumption
  · exact List.mem_cons

lemma nodup_insertSender (acc : List String) (s : String) (h : acc.Nodup) :
    (insertSender acc s).Nodup := by
  unfold insertSender
  split
  · exact h
  · exact List.Nodup.cons (by assumption) h

lemma mem_senderStep (acc : List String) (f : SrcFile) (t : String) :
    t ∈ senderStep acc f ↔
      t ∈ acc ∨ (isEmlName f.name = true ∧ f.msg.fromH = some t ∧ t ≠ "") := by
  unfold senderStep
  cases heml : isEmlName f.name with
  | false => simp
  | true =>
    cases hf : f.msg.fromH with
    | none => simp
    | some s =>
      by_cases hs : s = ""
      · subst hs
        simp only [if_pos rfl, if_true]
        constructor
        · exact fun h => Or.inl h
        · rintro (h | ⟨_, h, hne⟩)
          · exact h
          · exact absurd (Option.some.inj h).symm hne
      · simp only [if_neg hs, if_true, mem_insertSender]
        constructor
        · rintro (rfl | h)
          · exact Or.inr ⟨trivial, rfl, hs⟩
          · exact Or.inl h
        · rintro (h | ⟨_, h, _⟩)
          · exact Or.inr h
          · exact Or.inl (Option.some.inj h).symm

lemma nodup_senderStep (acc : List String) (f : SrcFile) (h : acc.Nodup) :
    (senderStep acc f).Nodup := by
  unfold senderStep
  cases isEmlName f.name with
  | false => exact h
  | true =>
    cases f.msg.fromH with
    | none => exact h
    | some s =>
      by_cases hs : s = ""
      · simpa [hs] using h
      · simpa [hs] using nodup_insertSender acc s h

lemma mem_foldl_senderStep (files : List SrcFile) (acc : List String) (t : String) :
    t ∈ files.foldl senderStep acc ↔
      t ∈ acc ∨ ∃ f ∈ files, isEmlName f.name = true ∧ f.msg.fromH = some t ∧ t ≠ "" := by
  induction files generalizing acc with
  | nil => simp
  | cons f fs ih =>
    rw [List.foldl_cons, ih, mem_senderStep]
    constructor
    · rintro ((h | h) | ⟨g, hg, hp⟩)
      · exact Or.inl h
      · exact Or.inr ⟨f, List.mem_cons_self f fs, h⟩
      · exact Or.inr ⟨g, List.mem_cons_of_mem f hg, hp⟩
    · rintro (h | ⟨g, hg, hp⟩)
      · exact Or.inl (Or.inl h)
      · rcases List.mem_cons.mp hg with rfl | hg
        · exact Or.inl (Or.inr hp)
        · exact Or.inr ⟨g, hg, hp⟩

lemma mem_get_senders (files : List SrcFile) (t : String) :
    t ∈ get_senders_from_eml files ↔
      ∃ f ∈ files, isEmlName f.name = true ∧ f.msg.fromH = some t ∧ t ≠ "" := by
  rw [get_senders_from_eml, mem_foldl_senderStep]
  simp

lemma nodup_foldl_senderStep (files : List SrcFile) (acc : List String) (h : acc.Nodup) :
    (files.foldl senderStep acc).Nodup := by
  induction files generalizing acc with
  | nil => exact h
  | cons f fs ih => exact ih _ (nodup_senderStep acc f h)

lemma nodup_get_senders (files : List SrcFile) : (get_senders_from_eml files).Nodup :=
  nodup_foldl_senderStep files [] List.nodup_nil

lemma empty_not_mem_get_senders (files : List SrcFile) :
    "" ∉ get_senders_from_eml files := by
  rw [mem_get_senders]
  rintro ⟨f, _, _, _, h⟩
  exact h rfl

lemma mem_copy_events (pd : String → Option DateTime) (files : List SrcFile)
    (senders : List String) (e : CopyEvent) :
    e ∈ copy_emails_to_sender_folders pd files senders ↔
      ∃ s ∈ senders, ∃ f ∈ files,
        isEmlName f.name = true ∧ f.msg.fromH = some s ∧ e = mkCopyEvent pd s f := by
  unfold copy_emails_to_sender_folders
  simp only [List.mem_flatMap, List.mem_map, List.mem_filter, Bool.and_eq_true, beq_iff_eq]
  constructor
  · rintro ⟨s, hs, f, ⟨hf, heml, hfrom⟩, rfl⟩
    exact ⟨s, hs, f, hf, heml, hfrom, rfl⟩
  · rintro ⟨s, hs, f, hf, heml, hfrom, rfl⟩
    exact ⟨s, hs, f, ⟨hf, heml, hfrom⟩, rfl⟩

lemma flatMap_congr_mem {α β : Type} (l : List α) (f g : α → List β)
    (h : ∀ a ∈ l, f a = g a) : l.flatMap f = l.flatMap g := by
  induction l with
  | nil => rfl
  | cons a l ih =>
    simp only [List.flatMap_cons]
    rw [h a (List.mem_cons_self a l), ih (fun b hb => h b (List.mem_cons_of_mem a hb))]

lemma runCopies_apply (es : List CopyEvent) (fs : FS) (p : String × String) :
    runCopies es fs p =
      match es.reverse.find? (fun e => decide (destKey e = p)) with
      | some e => some e.srcBytes
      | none => fs p := by
  induction es generalizing fs with
  | nil => simp [runCopies]
  | cons e tl ih =>
    show runCopies tl (applyCopy fs e) p = _
    rw [ih]
    simp only [List.reverse_cons, List.find?_append]
    cases h : tl.reverse.find? (fun e => decide (destKey e = p)) with
    | some e2 => simp [Option.or]
    | none =>
      simp only [Option.or]
      by_cases hk : destKey e = p
      · subst hk
        simp [List.find?_singleton, applyCopy, destKey]
      · have hk2 : ¬ (p = (e.destFolder, e.destName)) := fun hp => hk (by simp [destKey, hp])
        simp [List.find?_singleton, hk, applyCopy, hk2]

lemma mem_invalid_chars (c : Char) :
    c ∈ invalid_chars ↔
      c = '<' ∨ c = '>' ∨ c = ':' ∨ c = '"' ∨ c = '/' ∨ c = '\\' ∨
        c = '|' ∨ c = '?' ∨ c = '*' := by
  simp [invalid_chars]

lemma mem_filename_invalid_chars (c : Char) :
    c ∈ filename_invalid_chars ∨ c = '\n' ↔
      c = '<' ∨ c = '>' ∨ c = ':' ∨ c = '"' ∨ c = '/' ∨ c = '\\' ∨
        c = '|' ∨ c = '?' ∨ c = '*' ∨ c = '\n' := by
  simp [filename_invalid_chars, or_assoc]

lemma folderRepl_idem (c : Char) : folderRepl (folderRepl c) = folderRepl c := by
  unfold folderRepl
  by_cases hc : c ∈ invalid_chars
  · rw [if_pos hc, if_neg (by decide : '_' ∉ invalid_chars)]
  · rw [if_neg hc, if_neg hc]

lemma fileRepl_idem (c : Char) : fileRepl (fileRepl c) = fileRepl c := by
  unfold fileRepl
  by_cases hc : c ∈ filename_invalid_chars ∨ c = '\n'
  · rw [if_pos hc, if_neg (by decide : ¬ ('_' ∈ filename_invalid_chars ∨ '_' = '\n'))]
  · rw [if_neg hc, if_neg hc]

lemma filter_name_eq_unique (files : List SrcFile) (f : SrcFile) (q : SrcFile → Bool)
    (hnd : (files.map SrcFile.name).Nodup) (hmem : f ∈ files) :
    files.filter (fun g => (g.name == f.name) && q g) = if q f then [f] else [] := by
  induction files with
  | nil => cases hmem
  | cons a l ih =>
    rw [List.map_cons, List.nodup_cons] at hnd
    rcases List.mem_cons.mp hmem with rfl | hmem2
    · rw [List.filter_cons]
      have hl : l.filter (fun g => (g.name == f.name) && q g) = [] := by
        rw [List.filter_eq_nil_iff]
        intro g hg
        have hne : g.name ≠ f.name := by
          intro he
          exact hnd.1 (by rw [← he]; exact List.mem_map_of_mem SrcFile.name hg)
        simp [hne]
      cases hq : q f <;> simp [hq, hl]
    · have hne : a.name ≠ f.name := by
        intro he
        exact hnd.1 (by rw [he]; exact List.mem_map_of_mem SrcFile.name hmem2)
      rw [List.filter_cons, if_neg (by simp [hne])]
      exact ih hnd.2 hmem2

lemma flatMap_single_nil {β : Type} (l : List String) (s : String) (x : β)
    (h : s ∉ l) :
    (l.flatMap (fun t => if t = s then [x] else [])) = [] := by
  induction l with
  | nil => rfl
  | cons a l ih =>
    rw [List.flatMap_cons, if_neg (fun he => h (by rw [← he]; exact List.mem_cons_self a l))]
    rw [List.nil_append]
    exact ih (fun h2 => h (List.mem_cons_of_mem a h2))

lemma flatMap_single_of_nodup {β : Type} (l : List String) (s : String) (x : β)
    (hnd : l.Nodup) (hs : s ∈ l) :
    (l.flatMap (fun t => if t = s then [x] else [])) = [x] := by
  induction l with
  | nil => cases hs
  | cons a l ih =>
    rw [List.nodup_cons] at hnd
    rw [List.flatMap_cons]
    by_cases ha : a = s
    · subst ha
      rw [if_pos rfl, flatMap_single_nil l a x hnd.1, List.append_nil]
    · rw [if_neg ha, List.nil_append]
      rcases List.mem_cons.mp hs with rfl | hs2
      · exact absurd rfl ha
      · exact ih hnd.2 hs2

/-! ## Claim theorems -/

/-- C3: the folder-name sanitizer maps each of the nine characters
< > : " / \ | ? * to an underscore and leaves every other character
unchanged; the filename sanitizer does the same and additionally maps a
literal newline to an underscore. -/
theorem sanitizers_replace_exactly_invalid_chars (s : String) :
    (sanitize_folder_name s).data = s.data.map (fun c =>
        if c = '<' ∨ c = '>' ∨ c = ':' ∨ c = '"' ∨ c = '/' ∨ c = '\\' ∨
           c = '|' ∨ c = '?' ∨ c = '*' then '_' else c) ∧
    (sanitize_filename s).data = s.data.map (fun c =>
        if c = '<' ∨ c = '>' ∨ c = ':' ∨ c = '"' ∨ c = '/' ∨ c = '\\' ∨
           c = '|' ∨ c = '?' ∨ c = '*' ∨ c = '\n' then '_' else c) := by
  constructor
  · show s.data.map folderRepl = _
    refine congrArg (fun f => List.map f s.data) (funext fun c => ?_)
    unfold folderRepl
    by_cases hc : c ∈ invalid_chars
    · rw [if_pos hc, if_pos ((mem_invalid_chars c).mp hc)]
    · rw [if_neg hc, if_neg (fun h => hc ((mem_invalid_chars c).mpr h))]
  · show s.data.map fileRepl = _
    refine congrArg (fun f => List.map f s.data) (funext fun c => ?_)
    unfold fileRepl
    by_cases hc : c ∈ filename_invalid_chars ∨ c = '\n'
    · rw [if_pos hc, if_pos ((mem_filename_invalid_chars c).mp hc)]
    · rw [if_neg hc, if_neg (fun h => hc ((mem_filename_invalid_chars c).mpr h))]

/-- C9: both sanitizers are pure functions of their input, and each is
idempotent: sanitizing an already sanitized string changes nothing. -/
theorem sanitizers_deterministic_idempotent (s t : String) :
    (s = t → sanitize_folder_name s = sanitize_folder_name t ∧
      sanitize_filename s = sanitize_filename t) ∧
    sanitize_folder_name (sanitize_folder_name s) = sanitize_folder_name s ∧
    sanitize_filename (sanitize_filename s) = sanitize_filename s := by
  refine ⟨fun h => by rw [h]; exact ⟨rfl, rfl⟩, ?_, ?_⟩
  · show (⟨(s.data.map folderRepl).map folderRepl⟩ : String) = ⟨s.data.map folderRepl⟩
    refine congrArg String.mk ?_
    rw [List.map_map]
    exact congrArg (fun f => List.map f s.data) (funext folderRepl_idem)
  · show (⟨(s.data.map fileRepl).map fileRepl⟩ : String) = ⟨s.data.map fileRepl⟩
    refine congrArg String.mk ?_
    rw [List.map_map]
    exact congrArg (fun f => List.map f s.data) (funext fileRepl_idem)

/-- C9 witness: determinism and idempotence evaluated on the sender
string of Example 3 of the spec. -/
theorem sanitizers_deterministic_idempotent_witness :
    (sanitize_folder_name "\"Eve / Corp\" <eve@x.com>" =
        sanitize_folder_name "\"Eve / Corp\" <eve@x.com>" ∧
      sanitize_filename "\"Eve / Corp\" <eve@x.com>" =
        sanitize_filename "\"Eve / Corp\" <eve@x.com>") ∧
    sanitize_folder_name (sanitize_folder_name "\"Eve / Corp\" <eve@x.com>") =
      sanitize_folder_name "\"Eve / Corp\" <eve@x.com>" ∧
    sanitize_filename (sanitize_filename "\"Eve / Corp\" <eve@x.com>") =
      sanitize_filename "\"Eve / Corp\" <eve@x.com>" :=
  ⟨(sanitizers_deterministic_idempotent "\"Eve / Corp\" <eve@x.com>"
      "\"Eve / Corp\" <eve@x.com>").1 rfl,
    (sanitizers_deterministic_idempotent "\"Eve / Corp\" <eve@x.com>"
      "\"Eve / Corp\" <eve@x.com>").2⟩

/-- C1: every copy performed by the copy loop stems from a source file
whose raw From header is exactly the sender string of the folder the copy
goes to, and the folder name is the sanitization of that sender string. -/
theorem copies_preimage_correct (pd : String → Option DateTime)
    (files : List SrcFile) (senders : List String) (e : CopyEvent)
    (he : e ∈ copy_emails_to_sender_folders pd files senders) :
    e.destFolder = sanitize_folder_name e.sender ∧
    ∃ f ∈ files, f.name = e.srcName ∧ f.bytes = e.srcBytes ∧
      f.msg.fromH = some e.sender := by
  rcases (mem_copy_events pd files senders e).mp he with ⟨s, _, f, hf, _, hfrom, rfl⟩
  exact ⟨rfl, f, hf, rfl, rfl, hfrom⟩

/-- C1 witness: the single copy of a one-file run from alice. -/
theorem copies_preimage_correct_witness :
    (mkCopyEvent pdNone "alice@x.com" fileA).destFolder =
      sanitize_folder_name (mkCopyEvent pdNone "alice@x.com" fileA).sender ∧
    ∃ f ∈ [fileA], f.name = (mkCopyEvent pdNone "alice@x.com" fileA).srcName ∧
      f.bytes = (mkCopyEvent pdNone "alice@x.com" fileA).srcBytes ∧
      f.msg.fromH = some (mkCopyEvent pdNone "alice@x.com" fileA).sender :=
  copies_preimage_correct pdNone [fileA] ["alice@x.com"]
    (mkCopyEvent pdNone "alice@x.com" fileA) (by decide)

/-- C5: sender discovery returns exactly the distinct non-empty From
header values of the .eml files; a file whose name does not end in .eml
contributes nothing to the sender set, to the copies, or to the progress
output. -/
theorem discovery_contract (files : List SrcFile) (t : String) :
    (t ∈ get_senders_from_eml files ↔
      t ≠ "" ∧ ∃ f ∈ files, isEmlName f.name = true ∧ f.msg.fromH = some t) ∧
    (get_senders_from_eml files).Nodup ∧
    (∀ (pre post : List SrcFile) (g : SrcFile), isEmlName g.name = false →
      get_senders_from_eml (pre ++ g :: post) = get_senders_from_eml (pre ++ post) ∧
      ∀ (pd : String → Option DateTime) (senders : List String),
        copy_emails_to_sender_folders pd (pre ++ g :: post) senders =
          copy_emails_to_sender_folders pd (pre ++ post) senders ∧
        progressLines pd (pre ++ g :: post) senders =
          progressLines pd (pre ++ post) senders) := by
  refine ⟨?_, nodup_get_senders files, ?_⟩
  · rw [mem_get_senders]
    constructor
    · rintro ⟨f, hf, heml, hfrom, hne⟩
      exact ⟨hne, f, hf, heml, hfrom⟩
    · rintro ⟨hne, f, hf, heml, hfrom⟩
      exact ⟨f, hf, heml, hfrom, hne⟩
  · intro pre post g hg
    have hstep : ∀ acc, senderStep acc g = acc := fun acc => by simp [senderStep, hg]
    have hsend : get_senders_from_eml (pre ++ g :: post) =
        get_senders_from_eml (pre ++ post) := by
      unfold get_senders_from_eml
      rw [List.foldl_append, List.foldl_append, List.foldl_cons, hstep]
    refine ⟨hsend, fun pd senders => ?_⟩
    have hev : copy_emails_to_sender_folders pd (pre ++ g :: post) senders =
        copy_emails_to_sender_folders pd (pre ++ post) senders := by
      unfold copy_emails_to_sender_folders
      refine congrArg senders.flatMap (funext fun s => ?_)
      rw [List.filter_append, List.filter_append, List.filter_cons]
      simp [hg]
    exact ⟨hev, by unfold progressLines; rw [hev]⟩

/-- C5 witness: a .txt file in front of the directory listing changes
neither the sender set nor the copies nor the progress output. -/
theorem discovery_contract_witness :
    get_senders_from_eml [fileTxt, fileA] = get_senders_from_eml [fileA] ∧
    copy_emails_to_sender_folders pdNone [fileTxt, fileA] ["alice@x.com"] =
      copy_emails_to_sender_folders pdNone [fileA] ["alice@x.com"] ∧
    progressLines pdNone [fileTxt, fileA] ["alice@x.com"] =
      progressLines pdNone [fileA] ["alice@x.com"] := by
  have h := (discovery_contract [fileA] "alice@x.com").2.2 [] [fileA] fileTxt (by decide)
  exact ⟨h.1, (h.2 pdNone ["alice@x.com"]).1, (h.2 pdNone ["alice@x.com"]).2⟩

/-- C10: a .eml file whose From header is the empty string is invisible:
the sender set is the one of the listing without it, the empty string
never enters the sender set, and the copies performed are the ones of the
listing without it. -/
theorem empty_from_is_dropped (pd : String → Option DateTime)
    (pre post : List SrcFile) (f : SrcFile) (hf : f.msg.fromH = some "") :
    get_senders_from_eml (pre ++ f :: post) = get_senders_from_eml (pre ++ post) ∧
    "" ∉ get_senders_from_eml (pre ++ f :: post) ∧
    ∀ senders : List String, "" ∉ senders →
      copy_emails_to_sender_folders pd (pre ++ f :: post) senders =
        copy_emails_to_sender_folders pd (pre ++ post) senders := by
  refine ⟨?_, empty_not_mem_get_senders _, ?_⟩
  · have hstep : ∀ acc, senderStep acc f = acc := fun acc => by
      unfold senderStep
      rw [hf]
      simp
    unfold get_senders_from_eml
    rw [List.foldl_append, List.foldl_append, List.foldl_cons, hstep]
  · intro senders hsenders
    unfold copy_emails_to_sender_folders
    refine flatMap_congr_mem senders _ _ (fun s hs => ?_)
    have hcond : (isEmlName f.name && (f.msg.fromH == some s)) = false := by
      rw [hf]
      cases isEmlName f.name with
      | false => simp
      | true =>
        simp only [Bool.true_and, beq_eq_false_iff_ne, ne_eq, Option.some.injEq]
        exact fun h => hsenders (h ▸ hs)
    rw [List.filter_append, List.filter_append, List.filter_cons, hcond]
    simp

/-- C10 witness: a file with an empty From header alongside a normal one
is dropped from discovery and copying. -/
theorem empty_from_is_dropped_witness :
    get_senders_from_eml [fEmptyFrom, fileA] = get_senders_from_eml [fileA] ∧
    "" ∉ get_senders_from_eml [fEmptyFrom, fileA] ∧
    copy_emails_to_sender_folders pdNone [fEmptyFrom, fileA] ["alice@x.com"] =
      copy_emails_to_sender_folders pdNone [fileA] ["alice@x.com"] := by
  have h := empty_from_is_dropped pdNone [] [fileA] fEmptyFrom rfl
  exact ⟨h.1, h.2.1, h.2.2 ["alice@x.com"] (by decide)⟩

/-- C2 counterexample: a .eml file that possesses a From header whose
value is the empty string is copied nowhere: the run performs no copy at
all, refuting the claim that every .eml file possessing a From header is
copied into exactly one sender folder. -/
theorem eml_with_empty_from_copied_nowhere :
    fEmptyFrom.msg.fromH = some "" ∧ isEmlName fEmptyFrom.name = true ∧
    copy_emails_to_sender_folders pdNone [fEmptyFrom]
      (get_senders_from_eml [fEmptyFrom]) = [] :=
  ⟨rfl, by decide, by decide⟩

/-- C2 (amended): every source file ending in .eml that possesses a
non-empty From header is copied by the run exactly once, into the folder
of its own From value (a later same-named output may still overwrite the
copy in the destination tree). -/
theorem eml_with_nonempty_from_copied_once (pd : String → Option DateTime)
    (files : List SrcFile) (f : SrcFile) (s : String)
    (hnd : (files.map SrcFile.name).Nodup) (hmem : f ∈ files)
    (heml : isEmlName f.name = true) (hfrom : f.msg.fromH = some s) (hs : s ≠ "") :
    (copy_emails_to_sender_folders pd files (get_senders_from_eml files)).filter
        (fun e => e.srcName == f.name) = [mkCopyEvent pd s f] ∧
    (mkCopyEvent pd s f).destFolder = sanitize_folder_name s := by
  refine ⟨?_, rfl⟩
  have hsmem : s ∈ get_senders_from_eml files :=
    (mem_get_senders files s).mpr ⟨f, hmem, heml, hfrom, hs⟩
  unfold copy_emails_to_sender_folders
  rw [List.filter_flatMap]
  have hinner : ∀ t ∈ get_senders_from_eml files,
      List.filter (fun e => e.srcName == f.name)
        (List.map (mkCopyEvent pd t)
          (List.filter (fun g => isEmlName g.name && (g.msg.fromH == some t)) files)) =
      (fun t => if t = s then [mkCopyEvent pd s f] else []) t := by
    intro t _
    rw [List.filter_map]
    have hcomp : ((fun e : CopyEvent => e.srcName == f.name) ∘ (mkCopyEvent pd t)) =
        fun g : SrcFile => g.name == f.name := rfl
    rw [hcomp, List.filter_filter, filter_name_eq_unique files f _ hnd hmem]
    rw [heml, hfrom]
    by_cases hts : t = s
    · subst hts
      simp
    · have hst : ¬ (s = t) := fun h => hts h.symm
      simp [hst, hts]
  rw [flatMap_congr_mem _ _ _ hinner]
  exact flatMap_single_of_nodup _ s _ (nodup_get_senders files) hsmem

/-- C2 witness: in a one-file run from alice the file is copied exactly
once, into the alice folder. -/
theorem eml_with_nonempty_from_copied_once_witness :
    (copy_emails_to_sender_folders pdNone [fileA] (get_senders_from_eml [fileA])).filter
        (fun e => e.srcName == fileA.name) = [mkCopyEvent pdNone "alice@x.com" fileA] ∧
    (mkCopyEvent pdNone "alice@x.com" fileA).destFolder =
      sanitize_folder_name "alice@x.com" :=
  eml_with_nonempty_from_copied_once pdNone [fileA] fileA "alice@x.com"
    (by decide) (List.mem_cons_self fileA []) (by decide) rfl (by decide)

/-- C4: the destination filename is sanitized-subject _ date-string .eml;
a missing Subject header yields the literal No Subject, a missing Date
header or a failing date parse yields the literal UnknownDate, and a
successful parse yields the YYYY-MM-DD_HH-MM-SS rendering; every case is
total, so missing or unparseable headers never raise. -/
theorem fallback_naming (pd : String → Option DateTime) (s : String) (f : SrcFile) :
    (mkCopyEvent pd s f).destName =
      sanitize_filename (f.msg.subjectH.getD "No Subject") ++ "_" ++
        dateStrOf pd f.msg.dateH ++ ".eml" ∧
    (f.msg.subjectH = none → f.msg.subjectH.getD "No Subject" = "No Subject") ∧
    (f.msg.dateH = none → dateStrOf pd f.msg.dateH = "UnknownDate") ∧
    (∀ d, f.msg.dateH = some d → pd d = none →
      dateStrOf pd f.msg.dateH = "UnknownDate") ∧
    (∀ d dt, f.msg.dateH = some d → pd d = some dt →
      dateStrOf pd f.msg.dateH = strftimeYmdHMS dt) := by
  refine ⟨rfl, ?_, ?_, ?_, ?_⟩
  · intro h
    rw [h]
    rfl
  · intro h
    rw [h]
    rfl
  · intro d hd hpd
    simp [hd, dateStrOf, hpd]
  · intro d dt hd hpd
    simp [hd, dateStrOf, hpd]

/-- C4 witness: the fallbacks evaluated on a headerless message and on a
dated message under a failing and under a succeeding parser. -/
theorem fallback_naming_witness :
    fileNoHdr.msg.subjectH.getD "No Subject" = "No Subject" ∧
    dateStrOf pdNone fileNoHdr.msg.dateH = "UnknownDate" ∧
    dateStrOf pdNone fileDated.msg.dateH = "UnknownDate" ∧
    dateStrOf pdJan2024 fileDated.msg.dateH = strftimeYmdHMS ⟨2024, 1, 1, 10, 0, 0⟩ ∧
    (mkCopyEvent pdNone "bob@x.com" fileNoHdr).destName = "No Subject_UnknownDate.eml" :=
  ⟨(fallback_naming pdNone "bob@x.com" fileNoHdr).2.1 rfl,
   (fallback_naming pdNone "bob@x.com" fileNoHdr).2.2.1 rfl,
   (fallback_naming pdNone "alice@x.com" fileDated).2.2.2.1 _ rfl rfl,
   (fallback_naming pdJan2024 "alice@x.com" fileDated).2.2.2.2 _ _ rfl rfl,
   by decide⟩

/-- C6: every copy writes the source bytes verbatim at the path
(sanitized sender, composed filename), overwriting whatever the
destination tree held there; and for two .eml files agreeing on From,
Subject and Date, the run from an empty destination leaves exactly one
file in the sender folder, holding the bytes of the later file. -/
theorem copy_overwrite_semantics (pd : String → Option DateTime) :
    (∀ (files : List SrcFile) (senders : List String) (e : CopyEvent) (fs : FS),
      e ∈ copy_emails_to_sender_folders pd files senders →
      (∃ f ∈ files, f.bytes = e.srcBytes ∧ f.name = e.srcName ∧
        e.destFolder = sanitize_folder_name e.sender ∧
        e.destName = composedFilename pd f.msg) ∧
      applyCopy fs e (e.destFolder, e.destName) = some e.srcBytes) ∧
    (∀ (f1 f2 : SrcFile) (s : String) (p : String × String),
      f1.msg.fromH = some s → f2.msg.fromH = some s → s ≠ "" →
      isEmlName f1.name = true → isEmlName f2.name = true →
      f1.msg.subjectH = f2.msg.subjectH → f1.msg.dateH = f2.msg.dateH →
      run_sort pd [f1, f2] emptyFS p =
        if p = (sanitize_folder_name s, composedFilename pd f2.msg) then some f2.bytes
        else none) := by
  constructor
  · intro files senders e fs he
    rcases (mem_copy_events pd files senders e).mp he with ⟨t, _, f, hf, _, _, rfl⟩
    refine ⟨⟨f, hf, rfl, rfl, rfl, rfl⟩, ?_⟩
    simp [applyCopy]
  · intro f1 f2 s p h1from h2from hs h1eml h2eml hsubj hdate
    have e1 : senderStep [] f1 = [s] := by
      unfold senderStep
      rw [h1eml, h1from]
      simp [hs, insertSender]
    have e2 : senderStep [s] f2 = [s] := by
      unfold senderStep
      rw [h2eml, h2from]
      simp [hs, insertSender]
    have hsend : get_senders_from_eml [f1, f2] = [s] := by
      unfold get_senders_from_eml
      rw [List.foldl_cons, e1, List.foldl_cons, e2, List.foldl_nil]
    have hev : copy_emails_to_sender_folders pd [f1, f2] [s] =
        [mkCopyEvent pd s f1, mkCopyEvent pd s f2] := by
      unfold copy_emails_to_sender_folders
      simp [List.filter_cons, h1eml, h2eml, h1from, h2from]
    have hname : composedFilename pd f1.msg = composedFilename pd f2.msg := by
      unfold composedFilename
      rw [hsubj, hdate]
    show runCopies
        (copy_emails_to_sender_folders pd [f1, f2] (get_senders_from_eml [f1, f2]))
        emptyFS p = _
    rw [hsend, hev, runCopies_apply]
    have hrev : ([mkCopyEvent pd s f1, mkCopyEvent pd s f2] : List CopyEvent).reverse =
        [mkCopyEvent pd s f2, mkCopyEvent pd s f1] := rfl
    rw [hrev]
    by_cases hp : p = (sanitize_folder_name s, composedFilename pd f2.msg)
    · rw [if_pos hp]
      subst hp
      have hb2 : (decide (destKey (mkCopyEvent pd s f2) =
          (sanitize_folder_name s, composedFilename pd f2.msg))) = true :=
        decide_eq_true rfl
      simp only [List.find?_cons, hb2]
      rfl
    · rw [if_neg hp]
      have hb2 : (decide (destKey (mkCopyEvent pd s f2) = p)) = false := by
        rw [decide_eq_false_iff_not]
        exact fun h => hp h.symm
      have hb1 : (decide (destKey (mkCopyEvent pd s f1) = p)) = false := by
        rw [decide_eq_false_iff_not]
        intro h
        apply hp
        rw [← h]
        exact congrArg (fun x => (sanitize_folder_name s, x)) hname
      simp only [List.find?_cons, hb2, hb1, List.find?_nil]
      rfl

/-- C6 witness: the carol collision of Example 4, evaluated at the
colliding path and at an unrelated path. -/
theorem copy_overwrite_semantics_witness :
    run_sort pdNone [fileC1, fileC2] emptyFS
        ("carol@x.com", "Report_UnknownDate.eml") =
      (if (("carol@x.com", "Report_UnknownDate.eml") : String × String) =
          (sanitize_folder_name "carol@x.com", composedFilename pdNone fileC2.msg)
        then some fileC2.bytes else none) ∧
    run_sort pdNone [fileC1, fileC2] emptyFS ("carol@x.com", "other.eml") =
      (if (("carol@x.com", "other.eml") : String × String) =
          (sanitize_folder_name "carol@x.com", composedFilename pdNone fileC2.msg)
        then some fileC2.bytes else none) :=
  ⟨(copy_overwrite_semantics pdNone).2 fileC1 fileC2 "carol@x.com"
      ("carol@x.com", "Report_UnknownDate.eml") rfl rfl (by decide)
      (by decide) (by decide) rfl rfl,
   (copy_overwrite_semantics pdNone).2 fileC1 fileC2 "carol@x.com"
      ("carol@x.com", "other.eml") rfl rfl (by decide)
      (by decide) (by decide) rfl rfl⟩

/-- C7: a second run over the unchanged listing maps every destination
path to the same content as the first run; a path no copy targets keeps
its prior content (pre-existing unrelated files are untouched, folders
are never cleared), and no existing file is ever deleted. -/
theorem rerun_idempotent (pd : String → Option DateTime)
    (files : List SrcFile) (fs0 : FS) :
    (∀ p, run_sort pd files (run_sort pd files fs0) p = run_sort pd files fs0 p) ∧
    (∀ p, (∀ e ∈ copy_emails_to_sender_folders pd files (get_senders_from_eml files),
        destKey e ≠ p) → run_sort pd files fs0 p = fs0 p) ∧
    (∀ p b, fs0 p = some b → ∃ b2, run_sort pd files fs0 p = some b2) := by
  refine ⟨?_, ?_, ?_⟩
  · intro p
    show runCopies _ (runCopies _ fs0) p = runCopies _ fs0 p
    rw [runCopies_apply, runCopies_apply]
    cases h : (copy_emails_to_sender_folders pd files
        (get_senders_from_eml files)).reverse.find?
        (fun e => decide (destKey e = p)) with
    | some e => rfl
    | none => rfl
  · intro p hp
    show runCopies _ fs0 p = fs0 p
    rw [runCopies_apply]
    have hfind : (copy_emails_to_sender_folders pd files
        (get_senders_from_eml files)).reverse.find?
        (fun e => decide (destKey e = p)) = none := by
      rw [List.find?_eq_none]
      intro x hx
      simp only [decide_eq_true_eq]
      exact hp x (List.mem_reverse.mp hx)
    rw [hfind]
  · intro p b hb
    show ∃ b2, runCopies _ fs0 p = some b2
    rw [runCopies_apply]
    cases h : (copy_emails_to_sender_folders pd files
        (get_senders_from_eml files)).reverse.find?
        (fun e => decide (destKey e = p)) with
    | some e => exact ⟨e.srcBytes, rfl⟩
    | none => exact ⟨b, hb⟩

/-- C7 witness: running twice on the one-file listing agrees with running
once at the written path, and an unrelated path keeps its prior (empty)
content. -/
theorem rerun_idempotent_witness :
    run_sort pdNone [fileA] (run_sort pdNone [fileA] emptyFS)
        ("alice@x.com", "Hi_UnknownDate.eml") =
      run_sort pdNone [fileA] emptyFS ("alice@x.com", "Hi_UnknownDate.eml") ∧
    run_sort pdNone [fileA] emptyFS ("q", "q") = emptyFS ("q", "q") :=
  ⟨(rerun_idempotent pdNone [fileA] emptyFS).1 ("alice@x.com", "Hi_UnknownDate.eml"),
   (rerun_idempotent pdNone [fileA] emptyFS).2.1 ("q", "q") (by decide)⟩

/-- C8 counterexample: the line printed for a copy is exactly
Copied email src to folder folder with name dest, with no [n/total]
counter in front: its first character is C, while any line of the claimed
form starts with an opening bracket. -/
theorem progress_line_has_no_counter :
    progressLines pdNone [fileA] (get_senders_from_eml [fileA]) =
      ["Copied email a.eml to folder alice@x.com with name Hi_UnknownDate.eml"] ∧
    ¬ ∃ (n total : Nat) (rest : String),
        "Copied email a.eml to folder alice@x.com with name Hi_UnknownDate.eml" =
          "[" ++ Nat.repr n ++ "/" ++ Nat.repr total ++ "] " ++ rest := by
  constructor
  · rfl
  · rintro ⟨n, t, r, h⟩
    have h2 : some 'C' = some '[' :=
      calc
        some 'C' =
            "Copied email a.eml to folder alice@x.com with name Hi_UnknownDate.eml".data.head? := rfl
        _ = ("[" ++ Nat.repr n ++ "/" ++ Nat.repr t ++ "] " ++ r).data.head? := by rw [← h]
        _ = some '[' := rfl
    exact absurd (Option.some.inj h2) (by decide)

/-- C8 (amended): for every copy performed the program emits exactly one
line, of the form Copied email src to folder folder with name dest, where
folder is the sanitized sender of the copy; no current/total counter is
part of the line. -/
theorem progress_line_format (pd : String → Option DateTime)
    (files : List SrcFile) (senders : List String) (e : CopyEvent)
    (he : e ∈ copy_emails_to_sender_folders pd files senders) :
    progressLines pd files senders =
      (copy_emails_to_sender_folders pd files senders).map progressLine ∧
    progressLine e = "Copied email " ++ e.srcName ++ " to folder " ++
      sanitize_folder_name e.sender ++ " with name " ++ e.destName := by
  refine ⟨rfl, ?_⟩
  rcases (mem_copy_events pd files senders e).mp he with ⟨t, _, f, _, _, _, rfl⟩
  rfl

/-- C8 witness: the progress line of the single copy of a one-file run. -/
theorem progress_line_format_witness :
    progressLines pdNone [fileA] ["alice@x.com"] =
      (copy_emails_to_sender_folders pdNone [fileA] ["alice@x.com"]).map progressLine ∧
    progressLine (mkCopyEvent pdNone "alice@x.com" fileA) =
      "Copied email " ++ (mkCopyEvent pdNone "alice@x.com" fileA).srcName ++
      " to folder " ++
      sanitize_folder_name (mkCopyEvent pdNone "alice@x.com" fileA).sender ++
      " with name " ++ (mkCopyEvent pdNone "alice@x.com" fileA).destName :=
  progress_line_format pdNone [fileA] ["alice@x.com"]
    (mkCopyEvent pdNone "alice@x.com" fileA) (by decide)

end EmlSort
